import Mathlib

/-!
Shallow embedding of `utils/image_util.py` (image optimization helpers).

The filesystem is modelled as a partial map from paths to byte lists; the
image codec (PIL) is an abstract collaborator supplying `decode` and
`encode`; `Image.resize` in PIL returns an image with exactly the requested
dimensions, so images are modelled by their dimensions.  Python exceptions
are modelled by `Option`/`Except`: an operation inside a `try` block that
raises corresponds to a `none`, the enclosing handler to the `match` arm
that returns the fallback value.  Python's float arithmetic is idealized as
exact rational/real arithmetic.
-/

namespace ImageUtil

/-- A file path, as its character list. -/
abbrev Path := List Char

/-- The filesystem: maps each path to the bytes stored there, if any. -/
abbrev FS := Path → Option (List Nat)

/-- A decoded image; PIL images are modelled by their pixel dimensions,
which is all the optimization routine inspects. -/
structure Image where
  width : Nat
  height : Nat
deriving DecidableEq, Repr

/-- Options passed to `Image.save`: an optional explicit `quality` (absent
means the encoder default) and the `optimize` flag. -/
structure SaveOpts where
  quality : Option Nat
  optimize : Bool
deriving DecidableEq, Repr

/-- The abstract image codec (PIL): `decode` models `Image.open` on the
file's bytes, `encode` models `Image.save`, returning the bytes written.
`none` models a raised exception (corrupt file, unsupported format, I/O
error on write). -/
structure Codec where
  decode : List Nat → Option Image
  encode : Image → SaveOpts → Option (List Nat)

/-- A Python exception escaping to the caller. -/
inductive PyError where
  | oserror
deriving DecidableEq, Repr

/-! ### `os.path` helpers -/

/-- Reversed basename of `p`: the characters after the last `/`, reversed
(`os.path.basename`, scanning from the end). -/
def revBase (p : Path) : List Char :=
  p.reverse.takeWhile (· != '/')

/-- `os.path.basename`. -/
def basenameOf (p : Path) : Path :=
  (revBase p).reverse

/-- Reversed run of characters after the last `.` of the basename. -/
def revAfterDot (p : Path) : List Char :=
  (revBase p).takeWhile (· != '.')

/-- `os.path.splitext p`: splits `p` at the last dot of its basename,
provided some character of the basename strictly before that dot is not a
dot (leading dots of the basename never start an extension). -/
def splitext (p : Path) : Path × Path :=
  if (revAfterDot p).length < (revBase p).length ∧
      (((revBase p).drop ((revAfterDot p).length + 1)).any (· != '.')) = true then
    ((p.reverse.drop ((revAfterDot p).length + 1)).reverse, '.' :: (revAfterDot p).reverse)
  else
    (p, [])

/-- `os.path.join a b` (POSIX): `b` absolute wins; otherwise concatenate,
inserting a `/` unless `a` is empty or already ends with one. -/
def joinPath (a b : Path) : Path :=
  if b.head? = some '/' then b
  else if a = [] ∨ a.getLast? = some '/' then a ++ b
  else a ++ '/' :: b

/-! ### `optimize_image_for_api` -/

/-- `file_size_mb = os.path.getsize(image_path) / (1024 * 1024)`. -/
def fileSizeMB (n : Nat) : ℚ :=
  (n : ℚ) / (1024 * 1024)

/-- The square of `scale_factor = (max_size_mb / file_size_mb) ** 0.5`. -/
def scaleSq (max_size_mb : ℚ) (n : Nat) : ℚ :=
  max_size_mb / fileSizeMB n

/-- `int(d * scale_factor)` where `scale_factor = sqrt (scaleSq ...)`,
computed exactly: `⌊d * √q⌋ = Nat.sqrt ⌊d^2 * q⌋` for `q ≥ 0`. -/
def scaledDim (d : Nat) (max_size_mb : ℚ) (n : Nat) : Nat :=
  Nat.sqrt (Int.toNat ⌊(d : ℚ) * d * scaleSq max_size_mb n⌋)

/-- `img.resize((new_width, new_height), Image.LANCZOS)`: the resized
image has exactly the requested dimensions. -/
def resizedImage (img : Image) (max_size_mb : ℚ) (n : Nat) : Image :=
  ⟨scaledDim img.width max_size_mb n, scaledDim img.height max_size_mb n⟩

/-- The fixed suffix inserted before the extension. -/
def optimizedSuffix : List Char := "_optimized".data

/-- `optimized_path = f"{filename}_optimized{ext}"` where
`filename, ext = os.path.splitext(image_path)`. -/
def optimizedPath (p : Path) : Path :=
  (splitext p).1 ++ optimizedSuffix ++ (splitext p).2

/-- The save options chosen from the extension:
`if ext.lower() in ['.jpg', '.jpeg']: save(..., quality=85, optimize=True)
else: save(..., optimize=True)`. -/
def saveOpts (ext : Path) : SaveOpts :=
  if ext.map Char.toLower = ".jpg".data ∨ ext.map Char.toLower = ".jpeg".data then
    ⟨some 85, true⟩
  else
    ⟨none, true⟩

/-- `optimize_image_for_api(image_path, max_size_mb=4.0)`.

Returns the result (`.error` models an exception escaping to the caller —
only the initial `os.path.getsize`, which sits *before* the `try` block,
can raise one) together with the final filesystem.  Every failure inside
the `try` block (decode, encode, write) is caught and the original path is
returned. -/
def optimize_image_for_api (c : Codec) (fs : FS) (image_path : Path)
    (max_size_mb : ℚ) : Except PyError Path × FS :=
  match fs image_path with
  | none => (.error .oserror, fs)
  | some contents =>
    if fileSizeMB contents.length ≤ max_size_mb then
      (.ok image_path, fs)
    else
      match c.decode contents with
      | none => (.ok image_path, fs)
      | some img =>
        let resized_img := resizedImage img max_size_mb contents.length
        let optimized_path := optimizedPath image_path
        match c.encode resized_img (saveOpts (splitext image_path).2) with
        | none => (.ok image_path, fs)
        | some out =>
          (.ok optimized_path,
           fun q => if q = optimized_path then some out else fs q)

/-! ### `process_image_file` -/

/-- `process_image_file(image_path, output_folder)`: copy the file into the
output folder.  On success it returns the singleton list of the output
path; when the copy raises, the exception is caught and logged and the
function falls off the end, returning Python's implicit `None` (modelled
by the first component being `none`). -/
def process_image_file (fs : FS) (image_path output_folder : Path) :
    Option (List Path) × FS :=
  let base_filename := basenameOf image_path
  let output_path := joinPath output_folder base_filename
  match fs image_path with
  | some contents =>
    (some [output_path], fun q => if q = output_path then some contents else fs q)
  | none => (none, fs)

/-! ### base64 and `encode_image_to_base64` -/

/-- The standard base64 alphabet. -/
def b64Alphabet : List Char :=
  "ABCDEFGHIJKLMNOPQRSTUVWXYZabcdefghijklmnopqrstuvwxyz0123456789+/".data

/-- The base64 digit for a 6-bit value. -/
def b64Char (n : Nat) : Char :=
  b64Alphabet.getD n 'A'

/-- The 6-bit value of a base64 digit. -/
def b64Value (ch : Char) : Nat :=
  b64Alphabet.indexOf ch

/-- `base64.b64encode`: RFC 4648 base64 of a byte list, with `=` padding. -/
def b64encode : List Nat → List Char
  | [] => []
  | [a] => [b64Char (a / 4), b64Char (a % 4 * 16), '=', '=']
  | [a, b] => [b64Char (a / 4), b64Char (a % 4 * 16 + b / 16),
               b64Char (b % 16 * 4), '=']
  | a :: b :: c :: rest =>
      b64Char (a / 4) :: b64Char (a % 4 * 16 + b / 16) ::
      b64Char (b % 16 * 4 + c / 64) :: b64Char (c % 64) :: b64encode rest

/-- Decode one 4-character base64 group, honouring `=` padding. -/
def b64decodeChunk (c1 c2 c3 c4 : Char) : List Nat :=
  if c3 = '=' then
    [b64Value c1 * 4 + b64Value c2 / 16]
  else if c4 = '=' then
    [b64Value c1 * 4 + b64Value c2 / 16,
     b64Value c2 % 16 * 16 + b64Value c3 / 4]
  else
    [b64Value c1 * 4 + b64Value c2 / 16,
     b64Value c2 % 16 * 16 + b64Value c3 / 4,
     b64Value c3 % 4 * 64 + b64Value c4]

/-- `base64.b64decode` on well-formed input: decode 4-character groups. -/
def b64decode : List Char → List Nat
  | c1 :: c2 :: c3 :: c4 :: rest => b64decodeChunk c1 c2 c3 c4 ++ b64decode rest
  | _ => []

/-- `encode_image_to_base64(image_path)`: read the file's bytes and encode
them; a read failure is logged and the exception re-raised (`.error`). -/
def encode_image_to_base64 (fs : FS) (image_path : Path) :
    Except PyError (List Char) :=
  match fs image_path with
  | some bytes => .ok (b64encode bytes)
  | none => .error .oserror

/-! ### Concrete fixtures used to instantiate the theorems -/

/-- A 1000×800 image, as in the spec's 6 MB JPEG scenario. -/
def fixtureImage : Image := ⟨1000, 800⟩

/-- 6.0 MB of data (6 · 1024 · 1024 bytes). -/
def bigBytes : List Nat := List.replicate (6 * 1048576) 0

/-- 5.0 MB of data: an optimized output that is still over a 4 MB budget. -/
def stillBigBytes : List Nat := List.replicate (5 * 1048576) 0

/-- 2.0 MB of data, as in the spec's 2 MB PNG scenario. -/
def midBytes : List Nat := List.replicate (2 * 1048576) 0

/-- A codec that decodes everything to the 1000×800 fixture and encodes
everything to 5 MB of output. -/
def toyCodec : Codec := ⟨fun _ => some fixtureImage, fun _ _ => some stillBigBytes⟩

/-- A codec whose decode and encode always raise. -/
def failCodec : Codec := ⟨fun _ => none, fun _ _ => none⟩

/-- A filesystem holding one 6 MB file `photo.jpg`. -/
def bigFS : FS := fun q => if q = "photo.jpg".data then some bigBytes else none

/-- A filesystem holding one 6 MB file `photo.JPG` (uppercase extension). -/
def jpgUpperFS : FS := fun q => if q = "photo.JPG".data then some bigBytes else none

/-- A filesystem holding one 2 MB file `pic.png`. -/
def pngFS : FS := fun q => if q = "pic.png".data then some midBytes else none

/-- A filesystem holding one 3-byte file `img.png` with bytes "Man". -/
def smallFS : FS := fun q => if q = "img.png".data then some [77, 97, 110] else none

/-- The empty filesystem: every read and size query raises. -/
def emptyFS : FS := fun _ => none

/-! ### Structure of `splitext` -/

/-- If `takeWhile` stops strictly inside `l`, then `l` splits as the taken
part, one element failing the predicate, and the rest. -/
theorem takeWhile_length_lt_split {α : Type} {q : α → Bool} :
    ∀ {l : List α}, (l.takeWhile q).length < l.length →
      ∃ c, q c = false ∧
        l = l.takeWhile q ++ c :: l.drop ((l.takeWhile q).length + 1)
  | [], h => absurd h (by simp)
  | x :: xs, h => by
    cases hqx : q x with
    | true =>
      rw [List.takeWhile_cons_of_pos hqx] at h ⊢
      obtain ⟨c, hc, heq⟩ :=
        takeWhile_length_lt_split (l := xs) (by simpa using h)
      exact ⟨c, hc, by simpa using heq⟩
    | false =>
      refine ⟨x, hqx, ?_⟩
      rw [List.takeWhile_cons_of_neg (by simp [hqx])]
      simp

/-- Characters of `revAfterDot p` are not dots. -/
theorem revAfterDot_ne_dot {p : Path} {c : Char} (hc : c ∈ revAfterDot p) :
    (c != '.') = true :=
  List.mem_takeWhile_imp (p := fun ch => ch != '.') hc

/-- Characters of `revBase p` are not slashes. -/
theorem revBase_ne_slash {p : Path} {c : Char} (hc : c ∈ revBase p) :
    (c != '/') = true :=
  List.mem_takeWhile_imp (p := fun ch => ch != '/') hc

/-- Characters of `revAfterDot p` are not slashes. -/
theorem revAfterDot_ne_slash {p : Path} {c : Char} (hc : c ∈ revAfterDot p) :
    (c != '/') = true :=
  revBase_ne_slash ((List.takeWhile_sublist _).subset hc)

theorem revAfterDot_length_le (p : Path) :
    (revAfterDot p).length ≤ (revBase p).length :=
  (List.takeWhile_sublist _).length_le

/-- When `splitext` finds an extension, the reversed path splits as the
reversed extension body, the dot, and the rest. -/
theorem revAfterDot_split (p : Path)
    (h : (revAfterDot p).length < (revBase p).length) :
    p.reverse =
      revAfterDot p ++ '.' :: p.reverse.drop ((revAfterDot p).length + 1) := by
  obtain ⟨c, hc, heq0⟩ := takeWhile_length_lt_split (q := (· != '.')) h
  have hcdot : c = '.' := by simpa using hc
  subst hcdot
  have heq : revBase p =
      revAfterDot p ++ '.' :: (revBase p).drop ((revAfterDot p).length + 1) :=
    heq0
  have hrp : revBase p ++ p.reverse.dropWhile (· != '/') = p.reverse :=
    List.takeWhile_append_dropWhile _ _
  have key : p.reverse =
      revAfterDot p ++ '.' ::
        ((revBase p).drop ((revAfterDot p).length + 1) ++
          p.reverse.dropWhile (· != '/')) := by
    conv_lhs => rw [← hrp]
    conv_lhs => rw [heq]
    simp
  have hdrop : p.reverse.drop ((revAfterDot p).length + 1) =
      (revBase p).drop ((revAfterDot p).length + 1) ++
        p.reverse.dropWhile (· != '/') := by
    conv_lhs => rw [key]
    rw [show revAfterDot p ++ '.' ::
          ((revBase p).drop ((revAfterDot p).length + 1) ++
            p.reverse.dropWhile (· != '/')) =
        (revAfterDot p ++ ['.']) ++
          ((revBase p).drop ((revAfterDot p).length + 1) ++
            p.reverse.dropWhile (· != '/')) from by simp]
    exact List.drop_left' (by simp)
  rw [hdrop]
  exact key

/-- The two components of `splitext` concatenate back to the path. -/
theorem splitext_fst_append_snd (p : Path) :
    (splitext p).1 ++ (splitext p).2 = p := by
  rw [splitext]
  by_cases h : (revAfterDot p).length < (revBase p).length ∧
      (((revBase p).drop ((revAfterDot p).length + 1)).any (· != '.')) = true
  · rw [if_pos h]
    have hsp := revAfterDot_split p h.1
    conv_rhs => rw [← List.reverse_reverse p, hsp]
    simp
  · rw [if_neg h]
    simp

theorem optSuffix_rev_slash :
    ∀ c ∈ optimizedSuffix.reverse, (c != '/') = true := by decide

theorem optSuffix_rev_dot :
    ∀ c ∈ optimizedSuffix.reverse, (c != '.') = true := by decide

theorem optSuffix_rev_any :
    (optimizedSuffix.reverse.any (· != '.')) = true := by decide

theorem drop_append_left {α : Type} (l₁ l₂ : List α) (n : Nat) :
    (l₁ ++ l₂).drop (l₁.length + n) = l₂.drop n := by
  rw [← List.drop_drop, List.drop_left]

/-- Splitting the derived path recovers the original extension: the
`_optimized` suffix lands at the end of the stem. -/
theorem splitext_optimizedPath (p : Path) :
    splitext (optimizedPath p) = ((splitext p).1 ++ optimizedSuffix, (splitext p).2) := by
  by_cases h : (revAfterDot p).length < (revBase p).length ∧
      (((revBase p).drop ((revAfterDot p).length + 1)).any (· != '.')) = true
  · have hsp : splitext p =
        ((p.reverse.drop ((revAfterDot p).length + 1)).reverse,
          '.' :: (revAfterDot p).reverse) := by rw [splitext, if_pos h]
    have hPrev : (optimizedPath p).reverse =
        revAfterDot p ++ '.' ::
          (optimizedSuffix.reverse ++
            p.reverse.drop ((revAfterDot p).length + 1)) := by
      rw [optimizedPath, hsp]
      simp
    have hBase : revBase (optimizedPath p) =
        revAfterDot p ++ '.' ::
          (optimizedSuffix.reverse ++
            (p.reverse.drop ((revAfterDot p).length + 1)).takeWhile (· != '/')) := by
      rw [revBase, hPrev,
        List.takeWhile_append_of_pos (fun c hc => revAfterDot_ne_slash hc),
        List.takeWhile_cons_of_pos (by decide),
        List.takeWhile_append_of_pos optSuffix_rev_slash]
    have hAfter : revAfterDot (optimizedPath p) = revAfterDot p := by
      rw [revAfterDot, hBase,
        List.takeWhile_append_of_pos (fun c hc => revAfterDot_ne_dot hc),
        List.takeWhile_cons_of_neg (by decide)]
      simp
    have hcond : (revAfterDot (optimizedPath p)).length <
          (revBase (optimizedPath p)).length ∧
        (((revBase (optimizedPath p)).drop
            ((revAfterDot (optimizedPath p)).length + 1)).any (· != '.')) = true := by
      constructor
      · rw [hAfter, hBase]
        simp
      · rw [hAfter, hBase,
          show revAfterDot p ++ '.' ::
              (optimizedSuffix.reverse ++
                (p.reverse.drop ((revAfterDot p).length + 1)).takeWhile (· != '/')) =
            (revAfterDot p ++ ['.']) ++
              (optimizedSuffix.reverse ++
                (p.reverse.drop ((revAfterDot p).length + 1)).takeWhile (· != '/'))
            from by simp,
          List.drop_left' (by simp)]
        simp
        exact Or.inl ⟨'_', by decide, by decide⟩
    have hdrop2 : (optimizedPath p).reverse.drop ((revAfterDot p).length + 1) =
        optimizedSuffix.reverse ++
          p.reverse.drop ((revAfterDot p).length + 1) := by
      rw [hPrev,
        show revAfterDot p ++ '.' ::
            (optimizedSuffix.reverse ++
              p.reverse.drop ((revAfterDot p).length + 1)) =
          (revAfterDot p ++ ['.']) ++
            (optimizedSuffix.reverse ++
              p.reverse.drop ((revAfterDot p).length + 1))
          from by simp]
      exact List.drop_left' (by simp)
    rw [splitext, if_pos hcond, hAfter, hdrop2, hsp]
    simp
  · have hsp : splitext p = (p, []) := by rw [splitext, if_neg h]
    have hop : optimizedPath p = p ++ optimizedSuffix := by
      rw [optimizedPath, hsp]
      simp
    have hBase : revBase (p ++ optimizedSuffix) =
        optimizedSuffix.reverse ++ revBase p := by
      rw [revBase, List.reverse_append,
        List.takeWhile_append_of_pos optSuffix_rev_slash]
      rfl
    have hAfter : revAfterDot (p ++ optimizedSuffix) =
        optimizedSuffix.reverse ++ revAfterDot p := by
      rw [revAfterDot, hBase,
        List.takeWhile_append_of_pos optSuffix_rev_dot]
      rfl
    have hcond : ¬ ((revAfterDot (p ++ optimizedSuffix)).length <
          (revBase (p ++ optimizedSuffix)).length ∧
        (((revBase (p ++ optimizedSuffix)).drop
            ((revAfterDot (p ++ optimizedSuffix)).length + 1)).any (· != '.')) = true) := by
      rw [hAfter, hBase]
      by_cases hA : (revAfterDot p).length < (revBase p).length
      · have hB : ¬ (((revBase p).drop ((revAfterDot p).length + 1)).any (· != '.')) = true :=
          fun hb => h ⟨hA, hb⟩
        intro hc
        apply hB
        have harr : (optimizedSuffix.reverse ++ revAfterDot p).length + 1 =
            optimizedSuffix.reverse.length + ((revAfterDot p).length + 1) := by
          simp only [List.length_append, List.length_reverse]
          omega
        rw [harr, drop_append_left] at hc
        exact hc.2
      · intro hc
        have hlen := hc.1
        simp only [List.length_append] at hlen
        omega
    rw [hop, splitext, if_neg hcond, hsp]

/-- The derived output path is never the input path. -/
theorem optimizedPath_ne (p : Path) : optimizedPath p ≠ p := by
  intro hcontra
  have hlen := congrArg List.length hcontra
  have hcat := congrArg List.length (splitext_fst_append_snd p)
  have hsuf : optimizedSuffix.length = 10 := rfl
  simp only [optimizedPath, List.length_append] at hlen hcat
  omega

/-! ### Behavior of `optimize_image_for_api` -/

/-- Size query failure: the exception escapes and nothing is written. -/
theorem optimize_getsize_fail (c : Codec) (fs : FS) (p : Path) (m : ℚ)
    (h : fs p = none) :
    optimize_image_for_api c fs p m = (.error .oserror, fs) := by
  simp [optimize_image_for_api, h]

/-- Fast path: a file within budget is returned unchanged and the
filesystem is untouched. -/
theorem optimize_fast_path (c : Codec) (fs : FS) (p : Path) (m : ℚ)
    {contents : List Nat} (hread : fs p = some contents)
    (hsize : fileSizeMB contents.length ≤ m) :
    optimize_image_for_api c fs p m = (.ok p, fs) := by
  simp [optimize_image_for_api, hread, hsize]

/-- Decode failure inside the `try` block: caught, original path returned,
filesystem untouched. -/
theorem optimize_decode_fail (c : Codec) (fs : FS) (p : Path) (m : ℚ)
    {contents : List Nat} (hread : fs p = some contents)
    (hsize : ¬ fileSizeMB contents.length ≤ m)
    (hdec : c.decode contents = none) :
    optimize_image_for_api c fs p m = (.ok p, fs) := by
  simp [optimize_image_for_api, hread, hsize, hdec]

/-- Encode/write failure inside the `try` block: caught, original path
returned, filesystem untouched. -/
theorem optimize_encode_fail (c : Codec) (fs : FS) (p : Path) (m : ℚ)
    {contents : List Nat} {img : Image} (hread : fs p = some contents)
    (hsize : ¬ fileSizeMB contents.length ≤ m)
    (hdec : c.decode contents = some img)
    (henc : c.encode (resizedImage img m contents.length)
      (saveOpts (splitext p).2) = none) :
    optimize_image_for_api c fs p m = (.ok p, fs) := by
  simp [optimize_image_for_api, hread, hsize, hdec, henc]

/-- Successful resize branch: the encoded bytes are written to the derived
path, which is returned. -/
theorem optimize_resize (c : Codec) (fs : FS) (p : Path) (m : ℚ)
    {contents out : List Nat} {img : Image} (hread : fs p = some contents)
    (hsize : ¬ fileSizeMB contents.length ≤ m)
    (hdec : c.decode contents = some img)
    (henc : c.encode (resizedImage img m contents.length)
      (saveOpts (splitext p).2) = some out) :
    optimize_image_for_api c fs p m =
      (.ok (optimizedPath p),
        fun q => if q = optimizedPath p then some out else fs q) := by
  simp [optimize_image_for_api, hread, hsize, hdec, henc]

/-- Frame condition: away from the derived output path the filesystem is
unchanged, whatever happens. -/
theorem optimize_frame (c : Codec) (fs : FS) (p : Path) (m : ℚ)
    (q : Path) (hq : q ≠ optimizedPath p) :
    (optimize_image_for_api c fs p m).2 q = fs q := by
  cases hread : fs p with
  | none => rw [optimize_getsize_fail c fs p m hread]
  | some contents =>
    by_cases hsize : fileSizeMB contents.length ≤ m
    · rw [optimize_fast_path c fs p m hread hsize]
    · cases hdec : c.decode contents with
      | none => rw [optimize_decode_fail c fs p m hread hsize hdec]
      | some img =>
        cases henc : c.encode (resizedImage img m contents.length)
            (saveOpts (splitext p).2) with
        | none => rw [optimize_encode_fail c fs p m hread hsize hdec henc]
        | some out =>
          rw [optimize_resize c fs p m hread hsize hdec henc]
          simp [hq]

/-- The original file is never touched. -/
theorem optimize_preserves_input (c : Codec) (fs : FS) (p : Path) (m : ℚ) :
    (optimize_image_for_api c fs p m).2 p = fs p :=
  optimize_frame c fs p m p (fun hcontra => optimizedPath_ne p hcontra.symm)

/-- The returned path is the input path or the derived path, and an
exception escapes only on a size query failure. -/
theorem optimize_result_shape (c : Codec) (fs : FS) (p : Path) (m : ℚ) :
    (optimize_image_for_api c fs p m).1 = .ok p ∨
    (optimize_image_for_api c fs p m).1 = .ok (optimizedPath p) ∨
    ((optimize_image_for_api c fs p m).1 = .error .oserror ∧ fs p = none) := by
  cases hread : fs p with
  | none => exact Or.inr (Or.inr ⟨by rw [optimize_getsize_fail c fs p m hread], rfl⟩)
  | some contents =>
    by_cases hsize : fileSizeMB contents.length ≤ m
    · rw [optimize_fast_path c fs p m hread hsize]
      simp
    · cases hdec : c.decode contents with
      | none =>
        rw [optimize_decode_fail c fs p m hread hsize hdec]
        simp
      | some img =>
        cases henc : c.encode (resizedImage img m contents.length)
            (saveOpts (splitext p).2) with
        | none =>
          rw [optimize_encode_fail c fs p m hread hsize hdec henc]
          simp
        | some out =>
          rw [optimize_resize c fs p m hread hsize hdec henc]
          simp

/-- Once the size query succeeds, no exception escapes. -/
theorem optimize_no_error (c : Codec) (fs : FS) (p : Path) (m : ℚ)
    {contents : List Nat} (hread : fs p = some contents) :
    ∃ r, (optimize_image_for_api c fs p m).1 = .ok r := by
  rcases optimize_result_shape c fs p m with h | h | ⟨_, hnone⟩
  · exact ⟨p, h⟩
  · exact ⟨optimizedPath p, h⟩
  · rw [hread] at hnone
    exact absurd hnone (by simp)

/-! ### The scale computation equals the floor of the real scaling -/

/-- Floor of a real square root, via `Nat.sqrt` of the floor. -/
theorem natFloor_sqrt_floor (x : ℝ) (hx : 0 ≤ x) :
    ⌊Real.sqrt x⌋₊ = Nat.sqrt ⌊x⌋₊ := by
  rw [Nat.floor_eq_iff (Real.sqrt_nonneg x)]
  constructor
  · rw [Real.le_sqrt (by positivity) hx]
    calc ((Nat.sqrt ⌊x⌋₊ : ℝ)) ^ 2 = ((Nat.sqrt ⌊x⌋₊ ^ 2 : ℕ) : ℝ) := by push_cast; ring
      _ ≤ ((⌊x⌋₊ : ℕ) : ℝ) := by exact_mod_cast Nat.sqrt_le' ⌊x⌋₊
      _ ≤ x := Nat.floor_le hx
  · rw [Real.sqrt_lt' (by positivity)]
    calc x < ⌊x⌋₊ + 1 := Nat.lt_floor_add_one x
      _ ≤ (((Nat.sqrt ⌊x⌋₊ + 1) ^ 2 : ℕ) : ℝ) := by
            exact_mod_cast Nat.succ_le_of_lt (Nat.lt_succ_sqrt' ⌊x⌋₊)
      _ = ((Nat.sqrt ⌊x⌋₊ : ℝ) + 1) ^ 2 := by push_cast; ring

/-- `scaledDim` computes exactly `⌊d * sqrt (maxSizeMB / currentSizeMB)⌋`,
the claim's real-valued scaling formula. -/
theorem scaledDim_eq (d : Nat) (m : ℚ) (n : Nat) (hm : 0 ≤ m) (hn : 0 < n) :
    (scaledDim d m n : ℤ) =
      ⌊(d : ℝ) * Real.sqrt ((m : ℝ) / ((n : ℝ) / (1024 * 1024)))⌋ := by
  have hfs : (0 : ℚ) < fileSizeMB n := by
    rw [fileSizeMB]
    positivity
  have hq0 : (0 : ℚ) ≤ (d : ℚ) * d * scaleSq m n := by
    rw [scaleSq]
    positivity
  have hcast : (((d : ℚ) * d * scaleSq m n : ℚ) : ℝ) =
      ((d : ℝ) * d) * ((m : ℝ) / ((n : ℝ) / (1024 * 1024))) := by
    rw [scaleSq, fileSizeMB]
    push_cast
    ring
  have hy0 : (0 : ℝ) ≤ (m : ℝ) / ((n : ℝ) / (1024 * 1024)) := by
    have hm' : (0 : ℝ) ≤ (m : ℝ) := by exact_mod_cast hm
    positivity
  rw [scaledDim, Int.floor_toNat]
  rw [show ⌊(d : ℚ) * d * scaleSq m n⌋₊ = ⌊(((d : ℚ) * d * scaleSq m n : ℚ) : ℝ)⌋₊ from by
    rw [← Int.floor_toNat, ← Int.floor_toNat, Rat.floor_cast]]
  rw [← natFloor_sqrt_floor _ (by rw [hcast]; positivity)]
  rw [hcast, Real.sqrt_mul (by positivity), Real.sqrt_mul_self (Nat.cast_nonneg d)]
  exact Int.natCast_floor_eq_floor (by positivity)

/-! ### base64 round-trip -/

theorem b64Value_b64Char {k : Nat} (hk : k < 64) : b64Value (b64Char k) = k := by
  have h : ∀ j, j < 64 → b64Value (b64Char j) = j := by decide
  exact h k hk

theorem b64Char_ne_pad {k : Nat} (hk : k < 64) : b64Char k ≠ '=' := by
  have h : ∀ j, j < 64 → b64Char j ≠ '=' := by decide
  exact h k hk

/-- Decoding inverts encoding on byte lists. -/
theorem b64_roundtrip : ∀ (bytes : List Nat), (∀ x ∈ bytes, x < 256) →
    b64decode (b64encode bytes) = bytes
  | [], _ => rfl
  | [a], h => by
    have ha : a < 256 := h a (by simp)
    have h1 : a / 4 < 64 := by omega
    have h2 : a % 4 * 16 < 64 := by omega
    show b64decode [b64Char (a / 4), b64Char (a % 4 * 16), '=', '='] = [a]
    simp only [b64decode, b64decodeChunk, if_pos, List.append_nil]
    rw [b64Value_b64Char h1, b64Value_b64Char h2]
    simp only [List.cons.injEq, and_true]
    omega
  | [a, b], h => by
    have ha : a < 256 := h a (by simp)
    have hb : b < 256 := h b (by simp)
    have h1 : a / 4 < 64 := by omega
    have h2 : a % 4 * 16 + b / 16 < 64 := by omega
    have h3 : b % 16 * 4 < 64 := by omega
    show b64decode [b64Char (a / 4), b64Char (a % 4 * 16 + b / 16),
        b64Char (b % 16 * 4), '='] = [a, b]
    simp only [b64decode, b64decodeChunk, List.append_nil]
    rw [if_neg (b64Char_ne_pad h3), if_pos trivial]
    rw [b64Value_b64Char h1, b64Value_b64Char h2, b64Value_b64Char h3]
    simp only [List.cons.injEq, and_true]
    refine ⟨by omega, by omega⟩
  | a :: b :: c :: rest, h => by
    have ha : a < 256 := h a (by simp)
    have hb : b < 256 := h b (by simp)
    have hc : c < 256 := h c (by simp)
    have ih := b64_roundtrip rest (fun x hx => h x (by simp [hx]))
    have h1 : a / 4 < 64 := by omega
    have h2 : a % 4 * 16 + b / 16 < 64 := by omega
    have h3 : b % 16 * 4 + c / 64 < 64 := by omega
    have h4 : c % 64 < 64 := by omega
    show b64decode (b64Char (a / 4) :: b64Char (a % 4 * 16 + b / 16) ::
        b64Char (b % 16 * 4 + c / 64) :: b64Char (c % 64) :: b64encode rest) =
      a :: b :: c :: rest
    simp only [b64decode, b64decodeChunk]
    rw [if_neg (b64Char_ne_pad h3), if_neg (b64Char_ne_pad h4)]
    rw [b64Value_b64Char h1, b64Value_b64Char h2, b64Value_b64Char h3,
      b64Value_b64Char h4, ih]
    simp only [List.cons_append, List.nil_append, List.cons.injEq, and_true]
    refine ⟨by omega, by omega, by omega⟩

/-! ### Sizes of the fixtures -/

theorem bigBytes_length : bigBytes.length = 6 * 1048576 := by
  rw [bigBytes, List.length_replicate]

theorem stillBigBytes_length : stillBigBytes.length = 5 * 1048576 := by
  rw [stillBigBytes, List.length_replicate]

theorem midBytes_length : midBytes.length = 2 * 1048576 := by
  rw [midBytes, List.length_replicate]

theorem bigBytes_over : ¬ fileSizeMB bigBytes.length ≤ 4 := by
  rw [bigBytes_length, fileSizeMB]
  norm_num

theorem stillBigBytes_over : ¬ fileSizeMB stillBigBytes.length ≤ 4 := by
  rw [stillBigBytes_length, fileSizeMB]
  norm_num

theorem midBytes_under : fileSizeMB midBytes.length ≤ 4 := by
  rw [midBytes_length, fileSizeMB]
  norm_num

/-! ### The claims -/

/-- C1: for every input image over the byte budget, `optimize` returns a
path distinct from the input matching the `<stem>_optimized<ext>` naming
rule, and the resized image's dimensions are `⌊width · s⌋ × ⌊height · s⌋`
for `s = sqrt (maxSizeMB / currentSizeMB)`. -/
theorem claim_C1_resize (c : Codec) (fs : FS) (p : Path) (m : ℚ)
    (contents out : List Nat) (img : Image)
    (hm : 0 ≤ m)
    (hread : fs p = some contents)
    (hover : ¬ fileSizeMB contents.length ≤ m)
    (hdec : c.decode contents = some img)
    (henc : c.encode (resizedImage img m contents.length)
      (saveOpts (splitext p).2) = some out) :
    (optimize_image_for_api c fs p m).1 = .ok (optimizedPath p) ∧
    optimizedPath p ≠ p ∧
    optimizedPath p = (splitext p).1 ++ "_optimized".data ++ (splitext p).2 ∧
    ((resizedImage img m contents.length).width : ℤ) =
      ⌊(img.width : ℝ) *
        Real.sqrt ((m : ℝ) / ((contents.length : ℝ) / (1024 * 1024)))⌋ ∧
    ((resizedImage img m contents.length).height : ℤ) =
      ⌊(img.height : ℝ) *
        Real.sqrt ((m : ℝ) / ((contents.length : ℝ) / (1024 * 1024)))⌋ := by
  have hn : 0 < contents.length := by
    by_contra hn0
    apply hover
    rw [show contents.length = 0 from by omega, fileSizeMB]
    simpa using hm
  refine ⟨?_, optimizedPath_ne p, rfl, ?_, ?_⟩
  · rw [optimize_resize c fs p m hread hover hdec henc]
  · exact scaledDim_eq img.width m contents.length hm hn
  · exact scaledDim_eq img.height m contents.length hm hn

/-- C1 witness: the spec's 6.0 MB, 1000×800 JPEG with a 4.0 MB budget is
resized to 816×653 and written to `photo_optimized.jpg`. -/
theorem claim_C1_resize_witness :
    (optimize_image_for_api toyCodec bigFS "photo.jpg".data 4).1 =
      .ok (optimizedPath "photo.jpg".data) ∧
    optimizedPath "photo.jpg".data ≠ "photo.jpg".data ∧
    optimizedPath "photo.jpg".data = "photo_optimized.jpg".data ∧
    scaledDim 1000 4 bigBytes.length = 816 ∧
    scaledDim 800 4 bigBytes.length = 653 := by
  have hmain := claim_C1_resize toyCodec bigFS "photo.jpg".data 4 bigBytes
    stillBigBytes fixtureImage (by norm_num) rfl bigBytes_over rfl rfl
  have hlen : bigBytes.length = 6291456 := by rw [bigBytes_length]
  have hw : scaledDim 1000 4 bigBytes.length = 816 := by
    rw [hlen, scaledDim, scaleSq, fileSizeMB]
    rw [show ((1000 : ℕ) : ℚ) * (1000 : ℕ) *
          (4 / (((6291456 : ℕ) : ℚ) / (1024 * 1024))) =
        ((2000000 : ℤ) : ℚ) / ((3 : ℕ) : ℚ) from by norm_num]
    rw [Rat.floor_intCast_div_natCast]
    norm_num
    rw [show Int.toNat 666666 = 666666 from rfl]
    norm_num
  have hh : scaledDim 800 4 bigBytes.length = 653 := by
    rw [hlen, scaledDim, scaleSq, fileSizeMB]
    rw [show ((800 : ℕ) : ℚ) * (800 : ℕ) *
          (4 / (((6291456 : ℕ) : ℚ) / (1024 * 1024))) =
        ((1280000 : ℤ) : ℚ) / ((3 : ℕ) : ℚ) from by norm_num]
    rw [Rat.floor_intCast_div_natCast]
    norm_num
    rw [show Int.toNat 426666 = 426666 from rfl]
    norm_num
  exact ⟨hmain.1, hmain.2.1, by decide, hw, hh⟩

/-- C2: a file already within the byte budget is returned unchanged, and
the filesystem is untouched — no new file is created and the original
bytes are preserved exactly. -/
theorem claim_C2_fast_path (c : Codec) (fs : FS) (p : Path) (m : ℚ)
    (contents : List Nat) (hread : fs p = some contents)
    (hsize : fileSizeMB contents.length ≤ m) :
    optimize_image_for_api c fs p m = (.ok p, fs) :=
  optimize_fast_path c fs p m hread hsize

/-- C2 witness: the spec's 2.0 MB PNG with a 4.0 MB budget is returned
unchanged with no new file created. -/
theorem claim_C2_fast_path_witness :
    optimize_image_for_api toyCodec pngFS "pic.png".data 4 =
      (.ok "pic.png".data, pngFS) :=
  claim_C2_fast_path toyCodec pngFS "pic.png".data 4 midBytes rfl midBytes_under

/-- C3 counterexample: a failing size query (`os.path.getsize` sits before
the `try` block) raises an exception that escapes to the caller instead of
returning the original path. -/
theorem claim_C3_counterexample :
    (optimize_image_for_api toyCodec emptyFS "photo.jpg".data 4).1 =
      .error .oserror ∧
    ∀ r : Path,
      (optimize_image_for_api toyCodec emptyFS "photo.jpg".data 4).1 ≠ .ok r := by
  rw [optimize_getsize_fail toyCodec emptyFS "photo.jpg".data 4 rfl]
  exact ⟨rfl, fun r => by simp⟩

/-- C3 (amended): once the initial size query succeeds, no exception
escapes, and decode/encode/write failures inside the `try` block are
caught, returning the original path with the filesystem untouched. -/
theorem claim_C3_caught (c : Codec) (fs : FS) (p : Path) (m : ℚ)
    (contents : List Nat) (hread : fs p = some contents) :
    (∃ r, (optimize_image_for_api c fs p m).1 = .ok r) ∧
    (c.decode contents = none →
      optimize_image_for_api c fs p m = (.ok p, fs)) ∧
    (∀ img, c.decode contents = some img →
      c.encode (resizedImage img m contents.length)
        (saveOpts (splitext p).2) = none →
      optimize_image_for_api c fs p m = (.ok p, fs)) := by
  refine ⟨optimize_no_error c fs p m hread, ?_, ?_⟩
  · intro hdec
    by_cases hsize : fileSizeMB contents.length ≤ m
    · exact optimize_fast_path c fs p m hread hsize
    · exact optimize_decode_fail c fs p m hread hsize hdec
  · intro img hdec henc
    by_cases hsize : fileSizeMB contents.length ≤ m
    · exact optimize_fast_path c fs p m hread hsize
    · exact optimize_encode_fail c fs p m hread hsize hdec henc

/-- C3 witness: with a codec whose decode and encode always raise, the
6 MB file is handed back unchanged. -/
theorem claim_C3_caught_witness :
    (∃ r, (optimize_image_for_api failCodec bigFS "photo.jpg".data 4).1 = .ok r) ∧
    (failCodec.decode bigBytes = none →
      optimize_image_for_api failCodec bigFS "photo.jpg".data 4 =
        (.ok "photo.jpg".data, bigFS)) ∧
    (∀ img, failCodec.decode bigBytes = some img →
      failCodec.encode (resizedImage img 4 bigBytes.length)
        (saveOpts (splitext "photo.jpg".data).2) = none →
      optimize_image_for_api failCodec bigFS "photo.jpg".data 4 =
        (.ok "photo.jpg".data, bigFS)) :=
  claim_C3_caught failCodec bigFS "photo.jpg".data 4 bigBytes rfl

/-- C4: the original file is never mutated or deleted; the only possible
write is at the derived output path, which is always distinct from the
input path. -/
theorem claim_C4_frame (c : Codec) (fs : FS) (p : Path) (m : ℚ) :
    (optimize_image_for_api c fs p m).2 p = fs p ∧
    optimizedPath p ≠ p ∧
    ∀ q, q ≠ optimizedPath p → (optimize_image_for_api c fs p m).2 q = fs q :=
  ⟨optimize_preserves_input c fs p m, optimizedPath_ne p,
    fun q hq => optimize_frame c fs p m q hq⟩

/-- C4 witness: in the resize scenario the input file's bytes and an
unrelated path are untouched. -/
theorem claim_C4_frame_witness :
    (optimize_image_for_api toyCodec bigFS "photo.jpg".data 4).2
        "photo.jpg".data = bigFS "photo.jpg".data ∧
    optimizedPath "photo.jpg".data ≠ "photo.jpg".data ∧
    (optimize_image_for_api toyCodec bigFS "photo.jpg".data 4).2
        "other.png".data = bigFS "other.png".data := by
  have h := claim_C4_frame toyCodec bigFS "photo.jpg".data 4
  exact ⟨h.1, h.2.1, h.2.2 "other.png".data (by decide)⟩

/-- C5: in the resize branch, a `.jpg`/`.jpeg` extension (case-insensitive)
is encoded with quality 85 and encoder-level optimization; any other
extension is encoded with default quality and encoder-level optimization
only. -/
theorem claim_C5_save_options (c : Codec) (fs : FS) (p : Path) (m : ℚ)
    (contents out : List Nat) (img : Image)
    (hread : fs p = some contents)
    (hover : ¬ fileSizeMB contents.length ≤ m)
    (hdec : c.decode contents = some img)
    (henc : c.encode (resizedImage img m contents.length)
      (saveOpts (splitext p).2) = some out) :
    (((splitext p).2.map Char.toLower = ".jpg".data ∨
        (splitext p).2.map Char.toLower = ".jpeg".data) →
      (optimize_image_for_api c fs p m).2 (optimizedPath p) =
        c.encode (resizedImage img m contents.length) ⟨some 85, true⟩) ∧
    (¬ ((splitext p).2.map Char.toLower = ".jpg".data ∨
        (splitext p).2.map Char.toLower = ".jpeg".data) →
      (optimize_image_for_api c fs p m).2 (optimizedPath p) =
        c.encode (resizedImage img m contents.length) ⟨none, true⟩) := by
  have hw : (optimize_image_for_api c fs p m).2 (optimizedPath p) = some out := by
    rw [optimize_resize c fs p m hread hover hdec henc]
    simp
  constructor
  · intro hjpg
    rw [hw, ← henc, saveOpts, if_pos hjpg]
  · intro hn
    rw [hw, ← henc, saveOpts, if_neg hn]

/-- C5 witness: an uppercase `.JPG` extension is matched case-insensitively
and saved with quality 85; the bytes written are the encoder's output under
exactly those options. -/
theorem claim_C5_save_options_witness :
    (optimize_image_for_api toyCodec jpgUpperFS "photo.JPG".data 4).2
        (optimizedPath "photo.JPG".data) =
      toyCodec.encode (resizedImage fixtureImage 4 bigBytes.length)
        ⟨some 85, true⟩ := by
  have h := claim_C5_save_options toyCodec jpgUpperFS "photo.JPG".data 4
    bigBytes stillBigBytes fixtureImage rfl bigBytes_over rfl rfl
  exact h.1 (by decide)

/-- C6: the output path, when distinct from the input, is a deterministic
pure function of the input path alone, and a second call on the same input
with the same budget does not fail because the output already exists. -/
theorem claim_C6_deterministic_path (c₁ c₂ : Codec) (fs₁ fs₂ : FS) (p : Path)
    (m₁ m₂ : ℚ) (r₁ r₂ : Path) (contents : List Nat)
    (hread : fs₁ p = some contents)
    (h1 : (optimize_image_for_api c₁ fs₁ p m₁).1 = .ok r₁) (hne₁ : r₁ ≠ p)
    (h2 : (optimize_image_for_api c₂ fs₂ p m₂).1 = .ok r₂) (hne₂ : r₂ ≠ p) :
    r₁ = optimizedPath p ∧ r₂ = optimizedPath p ∧ r₁ = r₂ ∧
    ∃ r₃, (optimize_image_for_api c₁
      ((optimize_image_for_api c₁ fs₁ p m₁).2) p m₁).1 = .ok r₃ := by
  have e1 : r₁ = optimizedPath p := by
    rcases optimize_result_shape c₁ fs₁ p m₁ with h | h | ⟨h, _⟩
    · rw [h1] at h
      simp at h
      exact absurd h hne₁
    · rw [h1] at h
      simpa using h
    · rw [h1] at h
      simp at h
  have e2 : r₂ = optimizedPath p := by
    rcases optimize_result_shape c₂ fs₂ p m₂ with h | h | ⟨h, _⟩
    · rw [h2] at h
      simp at h
      exact absurd h hne₂
    · rw [h2] at h
      simpa using h
    · rw [h2] at h
      simp at h
  have hp : ((optimize_image_for_api c₁ fs₁ p m₁).2) p = some contents := by
    rw [optimize_preserves_input, hread]
  exact ⟨e1, e2, e1.trans e2.symm, optimize_no_error c₁ _ p m₁ hp⟩

/-- C6 witness: two resize runs on `photo.jpg` return the same derived
path, and the run repeated on the already-written state still succeeds. -/
theorem claim_C6_deterministic_path_witness :
    optimizedPath "photo.jpg".data = optimizedPath "photo.jpg".data ∧
    ∃ r₃, (optimize_image_for_api toyCodec
      ((optimize_image_for_api toyCodec bigFS "photo.jpg".data 4).2)
      "photo.jpg".data 4).1 = .ok r₃ := by
  have hres := optimize_resize toyCodec bigFS "photo.jpg".data 4
    (rfl : bigFS "photo.jpg".data = some bigBytes) bigBytes_over rfl rfl
  have h1 : (optimize_image_for_api toyCodec bigFS "photo.jpg".data 4).1 =
      .ok (optimizedPath "photo.jpg".data) := by rw [hres]
  have h := claim_C6_deterministic_path toyCodec toyCodec bigFS bigFS
    "photo.jpg".data 4 4 (optimizedPath "photo.jpg".data)
    (optimizedPath "photo.jpg".data) bigBytes rfl
    h1 (optimizedPath_ne _) h1 (optimizedPath_ne _)
  exact ⟨h.2.2.1 ▸ rfl, h.2.2.2⟩

/-- C7: naming is not idempotent — optimizing the derived output applies
the suffix again, giving `<stem>_optimized_optimized<ext>`, while
optimizing the same original twice overwrites the one `_optimized`
artifact. -/
theorem claim_C7_non_idempotent (c : Codec) (fs : FS) (p : Path) (m : ℚ)
    (contents out out₂ : List Nat) (img img₂ : Image)
    (hread : fs p = some contents)
    (hover : ¬ fileSizeMB contents.length ≤ m)
    (hdec : c.decode contents = some img)
    (henc : c.encode (resizedImage img m contents.length)
      (saveOpts (splitext p).2) = some out)
    (hover₂ : ¬ fileSizeMB out.length ≤ m)
    (hdec₂ : c.decode out = some img₂)
    (henc₂ : c.encode (resizedImage img₂ m out.length)
      (saveOpts (splitext p).2) = some out₂) :
    (optimize_image_for_api c ((optimize_image_for_api c fs p m).2)
        (optimizedPath p) m).1 = .ok (optimizedPath (optimizedPath p)) ∧
    optimizedPath (optimizedPath p) =
      (splitext p).1 ++ "_optimized".data ++ "_optimized".data ++
        (splitext p).2 ∧
    (optimize_image_for_api c ((optimize_image_for_api c fs p m).2) p m).1 =
      .ok (optimizedPath p) ∧
    (optimize_image_for_api c ((optimize_image_for_api c fs p m).2) p m).2
      (optimizedPath p) = some out := by
  have hfs1 := optimize_resize c fs p m hread hover hdec henc
  have hext : (splitext (optimizedPath p)).2 = (splitext p).2 := by
    rw [splitext_optimizedPath]
  have hread₁ : ((optimize_image_for_api c fs p m).2) (optimizedPath p) =
      some out := by
    rw [hfs1]
    simp
  have henc₂' : c.encode (resizedImage img₂ m out.length)
      (saveOpts (splitext (optimizedPath p)).2) = some out₂ := by
    rw [hext]
    exact henc₂
  have hsecond := optimize_resize c _ (optimizedPath p) m hread₁ hover₂ hdec₂ henc₂'
  have hread₂ : ((optimize_image_for_api c fs p m).2) p = some contents := by
    rw [optimize_preserves_input, hread]
  have hagain := optimize_resize c _ p m hread₂ hover hdec henc
  refine ⟨by rw [hsecond], ?_, by rw [hagain], ?_⟩
  · rw [optimizedPath, splitext_optimizedPath]
    simp [optimizedPath, optimizedSuffix]
  · rw [hagain]
    simp

/-- C7 witness: `photo.jpg` resized to a still-oversized output; a second
run on the output yields `photo_optimized_optimized.jpg`, and a second run
on the original overwrites `photo_optimized.jpg`. -/
theorem claim_C7_non_idempotent_witness :
    (optimize_image_for_api toyCodec
        ((optimize_image_for_api toyCodec bigFS "photo.jpg".data 4).2)
        (optimizedPath "photo.jpg".data) 4).1 =
      .ok (optimizedPath (optimizedPath "photo.jpg".data)) ∧
    optimizedPath (optimizedPath "photo.jpg".data) =
      "photo_optimized_optimized.jpg".data ∧
    (optimize_image_for_api toyCodec
        ((optimize_image_for_api toyCodec bigFS "photo.jpg".data 4).2)
        "photo.jpg".data 4).2 (optimizedPath "photo.jpg".data) =
      some stillBigBytes := by
  have h := claim_C7_non_idempotent toyCodec bigFS "photo.jpg".data 4
    bigBytes stillBigBytes stillBigBytes fixtureImage fixtureImage
    rfl bigBytes_over rfl rfl stillBigBytes_over rfl rfl
  exact ⟨h.1, by decide, h.2.2.2⟩

/-- C8: on a successful copy, `process_image_file` returns the singleton
list of the output path; when the copy fails the error is only logged and
the function falls through without returning a value (Python's implicit
`None`) — no fallback value is produced. -/
theorem claim_C8_copy_no_fallback (fs : FS) (p folder : Path) :
    (fs p = none → (process_image_file fs p folder).1 = none) ∧
    (∀ contents, fs p = some contents →
      (process_image_file fs p folder).1 =
        some [joinPath folder (basenameOf p)]) := by
  constructor
  · intro h
    simp [process_image_file, h]
  · intro contents h
    simp [process_image_file, h]

/-- C8 witness: copying a present 3-byte file returns the one output path;
copying a missing file returns no list. -/
theorem claim_C8_copy_no_fallback_witness :
    (process_image_file emptyFS "img.png".data "out".data).1 = none ∧
    (process_image_file smallFS "img.png".data "out".data).1 =
      some ["out/img.png".data] := by
  refine ⟨(claim_C8_copy_no_fallback emptyFS "img.png".data "out".data).1 rfl, ?_⟩
  have h := (claim_C8_copy_no_fallback smallFS "img.png".data "out".data).2
    [77, 97, 110] rfl
  rw [h]
  decide

/-- C9: for every readable file, `encode_image_to_base64` returns exactly
the standard base64 encoding of the file's bytes, and decoding that string
reproduces the bytes exactly. -/
theorem claim_C9_base64_roundtrip (fs : FS) (p : Path) (bytes : List Nat)
    (hread : fs p = some bytes) (hbytes : ∀ x ∈ bytes, x < 256) :
    encode_image_to_base64 fs p = .ok (b64encode bytes) ∧
    b64decode (b64encode bytes) = bytes := by
  constructor
  · rw [encode_image_to_base64, hread]
  · exact b64_roundtrip bytes hbytes

/-- C9 witness: the fixture bytes `[77, 97, 110]` ("Man") encode to the
exact known string "TWFu", which decodes back byte-for-byte. -/
theorem claim_C9_base64_roundtrip_witness :
    encode_image_to_base64 smallFS "img.png".data = .ok "TWFu".data ∧
    b64decode "TWFu".data = [77, 97, 110] := by
  have h := claim_C9_base64_roundtrip smallFS "img.png".data [77, 97, 110]
    rfl (by decide)
  have henc : b64encode [77, 97, 110] = "TWFu".data := by decide
  refine ⟨?_, ?_⟩
  · rw [h.1, henc]
  · rw [← henc]
    exact h.2

/-- C10: unlike `optimize`, `encode_image_to_base64` propagates failures —
it raises exactly when the underlying read fails, and on success returns
the encoding rather than any fallback. -/
theorem claim_C10_propagates (fs : FS) (p : Path) :
    (encode_image_to_base64 fs p = .error .oserror ↔ fs p = none) ∧
    (∀ bytes, fs p = some bytes →
      encode_image_to_base64 fs p = .ok (b64encode bytes)) := by
  constructor
  · constructor
    · intro h
      cases hread : fs p with
      | none => rfl
      | some bytes =>
        rw [encode_image_to_base64, hread] at h
        simp at h
    · intro h
      rw [encode_image_to_base64, h]
  · intro bytes h
    rw [encode_image_to_base64, h]

/-- C10 witness: a missing file raises; a present file returns its
encoding. -/
theorem claim_C10_propagates_witness :
    (encode_image_to_base64 emptyFS "img.png".data = .error .oserror ↔
      emptyFS "img.png".data = none) ∧
    encode_image_to_base64 smallFS "img.png".data =
      .ok (b64encode [77, 97, 110]) :=
  ⟨(claim_C10_propagates emptyFS "img.png".data).1,
    (claim_C10_propagates smallFS "img.png".data).2 [77, 97, 110] rfl⟩

end ImageUtil
